import Mathlib

/-!
Verification of the rsyesql SQL-text parser (src/lib.rs).

The source parses a text of labeled SQL statements into an insertion-ordered
map from tag to query text.  We embed the three source functions
(`remove_multi_line_comments`, `parse_line`, `parse`) over `List Char`:

* strings are lists of characters;
* the regex `(/\*.*?\*/)` with dot-matches-new-line (non-greedy) is realized
  by a scanner that, at each `/*`, looks for the first following `*/` and
  blanks the whole span (carriage return and line feed kept, every other
  character replaced by a space), matching `replace_all` semantics;
* the anchored tag regex `^\s*--\s*name\s*:\s*(.*?)\s*$` is realized by
  `tagCapture`; `.` does not match a line feed, `\s` and the final `$` do,
  hence the capture is the trimmed remainder provided it contains no `\x0a`;
* Rust `str::lines` is realized by `rustLines` (split at `\x0a`, a carriage
  return immediately before a terminator is dropped, no trailing empty line);
* `IndexMap` is realized by an association list; `entry ... and_modify ...
  or_insert` is realized by `upsert` (modify in place, else append).
-/

namespace Rsyesql

/-- Whitespace as matched by the regex class and by `str::trim`
(ASCII fragment: space, tab, line feed, vertical tab, form feed,
carriage return). -/
def isWs (c : Char) : Bool :=
  c = ' ' || c = '\t' || c = '\n' || c = '\x0b' || c = '\x0c' || c = '\r'

/-- Rust `str::trim`: drop whitespace from both ends. -/
def trim (l : List Char) : List Char :=
  ((l.dropWhile isWs).reverse.dropWhile isWs).reverse

/-- The replacement the closure in `remove_multi_line_comments` applies to a
character inside a matched comment span. -/
def blankChar (c : Char) : Char :=
  if c = '\r' ∨ c = '\n' then c else ' '

def blankChars (l : List Char) : List Char := l.map blankChar

/-- Scan for the first occurrence of the two-character sequence star-slash;
return the consumed segment (terminator included) and the remainder.
This is the non-greedy `.*?\*/` tail of the comment regex. -/
def findClose : List Char → Option (List Char × List Char)
  | [] => none
  | [_] => none
  | c :: d :: rest =>
    if c = '*' ∧ d = '/' then some ([c, d], rest)
    else (findClose (d :: rest)).map (fun p => (c :: p.1, p.2))

/-- Fueled scanner realizing `RE.replace_all` for the comment regex
`(/\*.*?\*/)`: at each unconsumed `/*` whose closing `*/` exists, the whole
span is blanked; if no `*/` follows, nothing later can match and the
remainder is returned unchanged. -/
def removeMLCGo : Nat → List Char → List Char
  | 0, l => l
  | _ + 1, [] => []
  | _ + 1, [c] => [c]
  | fuel + 1, c :: d :: rest =>
    if c = '/' ∧ d = '*' then
      match findClose rest with
      | some (seg, after) => ' ' :: ' ' :: (blankChars seg ++ removeMLCGo fuel after)
      | none => c :: d :: rest
    else
      c :: removeMLCGo fuel (d :: rest)

/-- `remove_multi_line_comments` from src/lib.rs. -/
def remove_multi_line_comments (text : List Char) : List Char :=
  removeMLCGo text.length text

/-- Drop one trailing carriage return, as `str::lines` does on a line
terminated by a carriage return plus line feed. -/
def chopCR (l : List Char) : List Char :=
  if l.getLast? = some '\r' then l.dropLast else l

/-- Accumulating splitter behind `rustLines`; `cur` holds the characters of
the current line in reverse. -/
def rustLinesGo : List Char → List Char → List (List Char)
  | cur, [] => if cur = [] then [] else [cur.reverse]
  | cur, c :: rest =>
    if c = '\n' then chopCR cur.reverse :: rustLinesGo [] rest
    else rustLinesGo (c :: cur) rest

/-- Rust `str::lines`. -/
def rustLines (l : List Char) : List (List Char) :=
  rustLinesGo [] l

inductive LineType where
  | Empty : LineType
  | Tag : LineType
  | Query : LineType
deriving DecidableEq, Repr

/-- The anchored tag regex `^\s*--\s*name\s*:\s*(.*?)\s*$` (`RE_TAG`).
`\s*` runs are maximal because each is followed by a non-whitespace literal;
the lazy capture followed by `\s*$` yields the trimmed remainder, except
that `.` cannot match a line feed, so a remainder whose trimmed core still
contains one is no match. -/
def tagCapture (line : List Char) : Option (List Char) :=
  match line.dropWhile isWs with
  | '-' :: '-' :: r1 =>
    match r1.dropWhile isWs with
    | 'n' :: 'a' :: 'm' :: 'e' :: r2 =>
      match r2.dropWhile isWs with
      | ':' :: r3 => if '\n' ∈ trim r3 then none else some (trim r3)
      | _ => none
    | _ => none
  | _ => none

/-- Truncate at the first occurrence of the two-character sequence `--`,
realizing `line.find("--")` followed by `line.get(0..idx)`. -/
def truncDD : List Char → List Char
  | [] => []
  | [c] => [c]
  | c :: d :: rest =>
    if c = '-' ∧ d = '-' then []
    else c :: truncDD (d :: rest)

/-- `parse_line` from src/lib.rs: try the tag regex first; otherwise strip
the single-line comment, trim, and classify Empty or Query. -/
def parse_line (line : List Char) : LineType × List Char :=
  match tagCapture line with
  | some t => (LineType.Tag, t)
  | none =>
    if trim (truncDD line) = [] then (LineType.Empty, trim (truncDD line))
    else (LineType.Query, trim (truncDD line))

inductive ParseError where
  | TagOverwritten : Nat → List Char → ParseError
  | QueryWithoutTag : Nat → List Char → ParseError
deriving DecidableEq, Repr

/-- Scanner state of `parse`: the accumulated map, the classification of the
previous non-skipped line, and the active tag. -/
structure PState where
  queries : List (List Char × List Char)
  lastType : Option LineType
  lastTag : Option (List Char)
deriving Repr

def initState : PState := ⟨[], none, none⟩

/-- `queries.entry(tag).and_modify(join with one space).or_insert(value)`
on the association-list model of `IndexMap`. -/
def upsert : List (List Char × List Char) → List Char → List Char → List (List Char × List Char)
  | [], k, v => [(k, v)]
  | (k2, v2) :: rest, k, v =>
    if k2 = k then (k2, v2 ++ ' ' :: v) :: rest
    else (k2, v2) :: upsert rest k v

/-- One iteration of the loop in `parse` (0-based index `idx`, errors carry
`idx + 1`). -/
def step (line : List Char) (idx : Nat) (s : PState) : Except ParseError PState :=
  if line = [] then .ok s
  else
    match parse_line line with
    | (LineType.Empty, _) => .ok s
    | (LineType.Tag, v) =>
      if s.lastType = some LineType.Tag then
        .error (ParseError.TagOverwritten (idx + 1) v)
      else
        .ok ⟨s.queries, some LineType.Tag, some v⟩
    | (LineType.Query, v) =>
      match s.lastTag with
      | none => .error (ParseError.QueryWithoutTag (idx + 1) v)
      | some t => .ok ⟨upsert s.queries t v, some LineType.Query, some t⟩

/-- The loop of `parse` over the enumerated lines. -/
def scanLines : List (List Char) → Nat → PState → Except ParseError PState
  | [], _, s => .ok s
  | l :: rest, idx, s =>
    match step l idx s with
    | .error e => .error e
    | .ok s2 => scanLines rest (idx + 1) s2

/-- `parse` from src/lib.rs. -/
def parse (text : List Char) : Except ParseError (List (List Char × List Char)) :=
  match scanLines (rustLines (remove_multi_line_comments text)) 0 initState with
  | .error e => .error e
  | .ok s => .ok s.queries

/-! ### Lemmas about the comment normalizer -/

/-- Pointwise relation between an input character and the corresponding
output character of the comment normalizer: unchanged, or (for characters
other than carriage return and line feed) replaced by a space. -/
def rmRel (c d : Char) : Prop :=
  d = c ∨ (¬ c = '\r' ∧ ¬ c = '\n' ∧ d = ' ')

theorem rmRel_refl (c : Char) : rmRel c c := Or.inl rfl

theorem findClose_eq : ∀ l s a : List Char, findClose l = some (s, a) →
    l = s ++ a ∧ 2 ≤ s.length := by
  intro l
  induction l with
  | nil => intro s a h; simp [findClose] at h
  | cons c t ih =>
    intro s a h
    cases t with
    | nil => simp [findClose] at h
    | cons d rest =>
      rw [findClose] at h
      by_cases hcd : c = '*' ∧ d = '/'
      · rw [if_pos hcd] at h
        simp only [Option.some.injEq, Prod.mk.injEq] at h
        obtain ⟨hs, ha⟩ := h
        subst hs; subst ha
        simp
      · rw [if_neg hcd] at h
        cases hfc : findClose (d :: rest) with
        | none => rw [hfc] at h; simp at h
        | some p =>
          rw [hfc] at h
          simp only [Option.map, Option.some.injEq] at h
          obtain ⟨s2, a2⟩ := p
          obtain ⟨hre, hlen⟩ := ih s2 a2 hfc
          simp only [Prod.mk.injEq] at h
          obtain ⟨hs, ha⟩ := h
          subst hs; subst ha
          constructor
          · simpa using hre
          · simp; omega

@[simp] theorem removeMLCGo_nil (f : Nat) : removeMLCGo f [] = [] := by
  cases f <;> rfl

theorem blankChars_rel (l : List Char) : List.Forall₂ rmRel l (blankChars l) := by
  induction l with
  | nil => exact List.Forall₂.nil
  | cons c t ih =>
    refine List.Forall₂.cons ?_ ih
    by_cases h : c = '\r' ∨ c = '\n'
    · exact Or.inl (by simp [blankChar, h])
    · push_neg at h
      exact Or.inr ⟨h.1, h.2, by simp [blankChar, h.1, h.2]⟩

theorem removeMLCGo_rel : ∀ (fuel : Nat) (l : List Char),
    List.Forall₂ rmRel l (removeMLCGo fuel l) := by
  intro fuel
  induction fuel with
  | zero =>
    intro l
    exact List.forall₂_same.mpr (fun x _ => rmRel_refl x)
  | succ fuel ih =>
    intro l
    match l with
    | [] => exact List.Forall₂.nil
    | [c] => exact List.Forall₂.cons (rmRel_refl c) List.Forall₂.nil
    | c :: d :: rest =>
      rw [removeMLCGo]
      by_cases hcd : c = '/' ∧ d = '*'
      · rw [if_pos hcd]
        cases hfc : findClose rest with
        | none => exact List.forall₂_same.mpr (fun x _ => rmRel_refl x)
        | some p =>
          obtain ⟨seg, after⟩ := p
          obtain ⟨hre, _⟩ := findClose_eq rest seg after hfc
          rw [hre]
          refine List.Forall₂.cons ?_ (List.Forall₂.cons ?_ ?_)
          · exact Or.inr ⟨by rw [hcd.1]; decide, by rw [hcd.1]; decide, rfl⟩
          · exact Or.inr ⟨by rw [hcd.2]; decide, by rw [hcd.2]; decide, rfl⟩
          · exact List.rel_append (blankChars_rel seg) (ih after)
      · rw [if_neg hcd]
        exact List.Forall₂.cons (rmRel_refl c) (ih (d :: rest))

theorem removeMLCGo_length (f : Nat) (l : List Char) :
    (removeMLCGo f l).length = l.length :=
  (removeMLCGo_rel f l).length_eq.symm

theorem remove_multi_line_comments_length (text : List Char) :
    (remove_multi_line_comments text).length = text.length :=
  removeMLCGo_length _ _

theorem rustLinesGo_length_eq : ∀ (a b cur cur2 : List Char),
    List.Forall₂ (fun c d => (c = '\n' ↔ d = '\n')) a b → cur.length = cur2.length →
    (rustLinesGo cur a).length = (rustLinesGo cur2 b).length := by
  intro a
  induction a with
  | nil =>
    intro b cur cur2 hab hc
    cases hab
    rcases cur with _ | ⟨x, xs⟩ <;> rcases cur2 with _ | ⟨y, ys⟩ <;>
      simp_all [rustLinesGo]
  | cons c a2 ih =>
    intro b cur cur2 hab hc
    cases hab with
    | cons hcd hab2 =>
      rw [rustLinesGo, rustLinesGo]
      by_cases hn : c = '\n'
      · rw [if_pos hn, if_pos (hcd.mp hn)]
        simpa using ih _ [] [] hab2 rfl
      · rw [if_neg hn, if_neg (fun h => hn (hcd.mpr h))]
        exact ih _ (c :: cur) (_ :: cur2) hab2 (by simpa using hc)

theorem removeMLCGo_passthrough : ∀ (xs : List Char), (∀ x ∈ xs, ¬ x = '/') →
    ∀ (g : Nat) (ys : List Char), xs.length + ys.length ≤ g →
    removeMLCGo g (xs ++ ys) = xs ++ removeMLCGo (g - xs.length) ys := by
  intro xs
  induction xs with
  | nil => intro _ g ys _; simp
  | cons x xs2 ih =>
    intro hx g ys h
    have hx0 : ¬ x = '/' := hx x (by simp)
    cases g with
    | zero =>
      simp only [List.length_cons] at h
      omega
    | succ g2 =>
      rcases hsplit : xs2 ++ ys with _ | ⟨d, tail⟩
      · rw [List.cons_append, hsplit]
        rw [List.append_eq_nil] at hsplit
        obtain ⟨h1, h2⟩ := hsplit
        subst h1; subst h2
        simp [removeMLCGo]
      · rw [List.cons_append, hsplit, removeMLCGo,
          if_neg (by intro hc; exact hx0 hc.1), ← hsplit]
        have harith : g2 + 1 - (x :: xs2).length = g2 - xs2.length := by
          simp only [List.length_cons]; omega
        have hlen2 : xs2.length + ys.length ≤ g2 := by
          simp only [List.length_cons] at h; omega
        rw [harith, ih (fun y hy => hx y (List.mem_cons_of_mem _ hy)) g2 ys hlen2]
        simp

theorem removeMLCGo_head (f : Nat) (c : Char) (rest : List Char) :
    ∃ e out, removeMLCGo f (c :: rest) = e :: out ∧ (e = c ∨ e = ' ') := by
  have h := removeMLCGo_rel f (c :: rest)
  revert h
  generalize removeMLCGo f (c :: rest) = X
  intro h
  cases h with
  | cons hrel htail =>
    refine ⟨_, _, rfl, ?_⟩
    rcases hrel with h | ⟨_, _, h⟩
    · exact Or.inl h
    · exact Or.inr h

theorem blankChar_ne_slash (c : Char) : ¬ blankChar c = '/' := by
  rw [blankChar]
  split
  · rename_i h
    rcases h with h | h <;> (subst h; decide)
  · decide

theorem removeMLCGo_idem : ∀ (n : Nat) (l : List Char) (f g : Nat),
    l.length ≤ n → l.length ≤ f → l.length ≤ g →
    removeMLCGo g (removeMLCGo f l) = removeMLCGo f l := by
  intro n
  induction n with
  | zero =>
    intro l f g hn _ _
    have hl : l = [] := List.eq_nil_of_length_eq_zero (Nat.le_zero.mp hn)
    subst hl; simp
  | succ n ih =>
    intro l f g hn hf hg
    match l with
    | [] => simp
    | [c] =>
      cases f with
      | zero => simp at hf
      | succ f2 =>
        cases g with
        | zero => simp at hg
        | succ g2 => simp [removeMLCGo]
    | c :: d :: rest =>
      cases f with
      | zero => simp at hf
      | succ f2 =>
        cases g with
        | zero => simp at hg
        | succ g2 =>
          simp only [List.length_cons] at hn hf hg
          by_cases hcd : c = '/' ∧ d = '*'
          · cases hfc : findClose rest with
            | none =>
              have hinner : removeMLCGo (f2 + 1) (c :: d :: rest) = c :: d :: rest := by
                rw [removeMLCGo, if_pos hcd, hfc]
              have houter : removeMLCGo (g2 + 1) (c :: d :: rest) = c :: d :: rest := by
                rw [removeMLCGo, if_pos hcd, hfc]
              rw [hinner, houter]
            | some p =>
              obtain ⟨seg, after⟩ := p
              obtain ⟨hre, hlen⟩ := findClose_eq rest seg after hfc
              have hinner : removeMLCGo (f2 + 1) (c :: d :: rest)
                  = ' ' :: ' ' :: (blankChars seg ++ removeMLCGo f2 after) := by
                rw [removeMLCGo, if_pos hcd, hfc]
              rw [hinner]
              have hxs : ∀ x ∈ (' ' :: ' ' :: blankChars seg), ¬ x = '/' := by
                intro x hx
                simp only [List.mem_cons] at hx
                rcases hx with rfl | rfl | hx
                · decide
                · decide
                · obtain ⟨y, _, hy⟩ := List.mem_map.mp hx
                  rw [← hy]; exact blankChar_ne_slash y
              have hrl : (removeMLCGo f2 after).length = after.length :=
                removeMLCGo_length f2 after
              have hlsum : rest.length = seg.length + after.length := by
                rw [hre]; simp
              have hxlen : (' ' :: ' ' :: blankChars seg).length = 2 + seg.length := by
                simp only [List.length_cons, blankChars, List.length_map]
                omega
              have hshape : (' ' :: ' ' :: (blankChars seg ++ removeMLCGo f2 after))
                  = (' ' :: ' ' :: blankChars seg) ++ removeMLCGo f2 after := by simp
              have hgbound : (' ' :: ' ' :: blankChars seg).length
                  + (removeMLCGo f2 after).length ≤ g2 + 1 := by
                rw [hxlen, hrl]; omega
              rw [hshape, removeMLCGo_passthrough _ hxs (g2 + 1) _ hgbound]
              have hidem : removeMLCGo (g2 + 1 - (' ' :: ' ' :: blankChars seg).length)
                  (removeMLCGo f2 after) = removeMLCGo f2 after := by
                refine ih after f2 _ ?_ ?_ ?_
                · omega
                · omega
                · rw [hxlen]; omega
              rw [hidem]
          · have hinner : removeMLCGo (f2 + 1) (c :: d :: rest)
                = c :: removeMLCGo f2 (d :: rest) := by
              rw [removeMLCGo, if_neg hcd]
            rw [hinner]
            obtain ⟨e, out, hX, he⟩ := removeMLCGo_head f2 d rest
            rw [hX, removeMLCGo]
            have hne : ¬ (c = '/' ∧ e = '*') := by
              rintro ⟨hc, hstar⟩
              rcases he with rfl | rfl
              · exact hcd ⟨hc, hstar⟩
              · exact absurd hstar (by decide)
            rw [if_neg hne, ← hX,
              ih (d :: rest) f2 g2 (by simp only [List.length_cons]; omega)
                (by simp only [List.length_cons]; omega)
                (by simp only [List.length_cons]; omega)]

theorem rm_lines_count (text : List Char) :
    (rustLines (remove_multi_line_comments text)).length = (rustLines text).length := by
  refine (rustLinesGo_length_eq text (remove_multi_line_comments text) [] [] ?_ rfl).symm
  refine (removeMLCGo_rel _ text).imp ?_
  intro c d h
  rcases h with h | ⟨_, hn, hs⟩
  · rw [h]
  · rw [hs]
    constructor
    · intro h2; exact absurd h2 hn
    · intro h2; exact absurd h2 (by decide)

/-! ### The span decomposition of the comment normalizer

The next definitions and lemmas characterize the matched spans of the
comment regex.  `hasClose l` holds when the two-character sequence
star-slash occurs in `l`; `hasOpenMatch l` holds when `l` contains a
regex match, i.e. a `/*` with some `*/` after it.  The decomposition
theorem splits the input into alternating untouched chunks and matched
spans: the untouched chunks (and the tail) contain no match, each span
is a `/*` block closed by its first `*/`, and the output is the same
decomposition with every span blanked by `blankChars`. -/

/-- Does the two-character sequence star-slash occur in the list? -/
def hasClose : List Char → Bool
  | [] => false
  | [_] => false
  | c :: d :: rest =>
    if c = '*' ∧ d = '/' then true else hasClose (d :: rest)

/-- Does the comment regex match somewhere in the list, i.e. is there a
slash-star with a star-slash after it? -/
def hasOpenMatch : List Char → Bool
  | [] => false
  | [_] => false
  | c :: d :: rest =>
    if c = '/' ∧ d = '*' ∧ hasClose rest = true then true
    else hasOpenMatch (d :: rest)

theorem hasClose_tail (x : Char) (l : List Char) (h : hasClose (x :: l) = false) :
    hasClose l = false := by
  cases l with
  | nil => rfl
  | cons d rest =>
    rw [hasClose] at h
    by_cases hxd : x = '*' ∧ d = '/'
    · rw [if_pos hxd] at h
      exact absurd h (by simp)
    · rwa [if_neg hxd] at h

theorem hasOpenMatch_of_no_close : ∀ l, hasClose l = false → hasOpenMatch l = false := by
  intro l
  induction l with
  | nil => intro _; rfl
  | cons c t ih =>
    intro h
    cases t with
    | nil => rfl
    | cons d rest =>
      rw [hasOpenMatch]
      have ht : hasClose (d :: rest) = false := hasClose_tail c _ h
      have hr : hasClose rest = false := hasClose_tail d rest ht
      rw [if_neg (by rintro ⟨_, _, hcr⟩; rw [hr] at hcr; exact absurd hcr (by simp))]
      exact ih ht

theorem findClose_none_hasClose : ∀ l, findClose l = none → hasClose l = false := by
  intro l
  induction l with
  | nil => intro _; rfl
  | cons c t ih =>
    intro h
    cases t with
    | nil => rfl
    | cons d rest =>
      rw [findClose] at h
      by_cases hcd : c = '*' ∧ d = '/'
      · rw [if_pos hcd] at h
        exact absurd h (by simp)
      · rw [if_neg hcd] at h
        rw [hasClose, if_neg hcd]
        apply ih
        cases hfc : findClose (d :: rest) with
        | none => rfl
        | some p =>
          rw [hfc] at h
          exact absurd h (by simp)

theorem findClose_shape : ∀ l s a, findClose l = some (s, a) →
    ∃ mid, s = mid ++ ['*', '/'] ∧ hasClose mid = false := by
  intro l
  induction l with
  | nil => intro s a h; simp [findClose] at h
  | cons c t ih =>
    intro s a h
    cases t with
    | nil => simp [findClose] at h
    | cons d rest =>
      rw [findClose] at h
      by_cases hcd : c = '*' ∧ d = '/'
      · rw [if_pos hcd] at h
        simp only [Option.some.injEq, Prod.mk.injEq] at h
        obtain ⟨hs, _⟩ := h
        refine ⟨[], ?_, rfl⟩
        rw [← hs, hcd.1, hcd.2]
        rfl
      · rw [if_neg hcd] at h
        cases hfc : findClose (d :: rest) with
        | none =>
          rw [hfc] at h
          simp at h
        | some p =>
          rw [hfc] at h
          obtain ⟨s2, a2⟩ := p
          simp only [Option.map, Option.some.injEq, Prod.mk.injEq] at h
          obtain ⟨hs, _⟩ := h
          obtain ⟨mid2, hm2, hc2⟩ := ih s2 a2 hfc
          refine ⟨c :: mid2, ?_, ?_⟩
          · rw [← hs, hm2]
            rfl
          · cases hmid : mid2 with
            | nil => rfl
            | cons e mid3 =>
              have hed : e = d := by
                obtain ⟨hre, _⟩ := findClose_eq (d :: rest) s2 a2 hfc
                rw [hm2, hmid] at hre
                injection hre with h1 _
                exact h1.symm
              rw [hasClose]
              rw [if_neg (by rintro ⟨hc3, he3⟩; exact hcd ⟨hc3, by rw [← hed]; exact he3⟩)]
              rw [hmid] at hc2
              exact hc2

theorem removeMLCGo_decomp : ∀ (fuel : Nat) (l : List Char), l.length ≤ fuel →
    ∃ (segs : List (List Char × List Char)) (tail : List Char),
      l = (segs.map (fun p => p.1 ++ p.2)).flatten ++ tail ∧
      removeMLCGo fuel l = (segs.map (fun p => p.1 ++ blankChars p.2)).flatten ++ tail ∧
      (∀ p ∈ segs, hasOpenMatch p.1 = false ∧
        ∃ mid, p.2 = '/' :: '*' :: (mid ++ ['*', '/']) ∧ hasClose mid = false) ∧
      hasOpenMatch tail = false := by
  intro fuel
  induction fuel with
  | zero =>
    intro l hl
    have hnil : l = [] := List.eq_nil_of_length_eq_zero (Nat.le_zero.mp hl)
    subst hnil
    exact ⟨[], [], rfl, rfl, by simp, rfl⟩
  | succ fuel ih =>
    intro l hl
    match l with
    | [] => exact ⟨[], [], rfl, rfl, by simp, rfl⟩
    | [c] => exact ⟨[], [c], rfl, rfl, by simp, rfl⟩
    | c :: d :: rest =>
      simp only [List.length_cons] at hl
      by_cases hcd : c = '/' ∧ d = '*'
      · cases hfc : findClose rest with
        | none =>
          refine ⟨[], c :: d :: rest, rfl, ?_, by simp, ?_⟩
          · simp only [List.map_nil, List.flatten_nil, List.nil_append]
            rw [removeMLCGo, if_pos hcd, hfc]
          · obtain ⟨hc, hd⟩ := hcd
            subst hc
            subst hd
            have hr : hasClose rest = false := findClose_none_hasClose rest hfc
            rw [hasOpenMatch]
            rw [if_neg (by rintro ⟨_, _, hcr⟩; rw [hr] at hcr; exact absurd hcr (by simp))]
            cases rest with
            | nil => rfl
            | cons e rest2 =>
              rw [hasOpenMatch]
              rw [if_neg (by rintro ⟨hstar, _, _⟩; exact absurd hstar (by decide))]
              exact hasOpenMatch_of_no_close (e :: rest2) hr
        | some p =>
          obtain ⟨seg, after⟩ := p
          obtain ⟨hre, hslen⟩ := findClose_eq rest seg after hfc
          obtain ⟨mid, hmid, hmc⟩ := findClose_shape rest seg after hfc
          have hafter : after.length ≤ fuel := by
            rw [hre] at hl
            simp only [List.length_append] at hl
            omega
          obtain ⟨segs2, tail2, g1, g2, g3, g4⟩ := ih after hafter
          refine ⟨([], '/' :: '*' :: seg) :: segs2, tail2, ?_, ?_, ?_, g4⟩
          · simp only [List.map_cons, List.flatten_cons, List.nil_append]
            rw [hcd.1, hcd.2, hre, g1]
            simp [List.append_assoc]
          · rw [removeMLCGo, if_pos hcd, hfc]
            show ' ' :: ' ' :: (blankChars seg ++ removeMLCGo fuel after) = _
            rw [g2]
            have hb : blankChars ('/' :: '*' :: seg) = ' ' :: ' ' :: blankChars seg := rfl
            simp only [List.map_cons, List.flatten_cons, List.nil_append, hb]
            simp [List.append_assoc]
          · intro p hp
            rcases List.mem_cons.mp hp with rfl | hp2
            · exact ⟨rfl, mid, by rw [hmid], hmc⟩
            · exact g3 p hp2
      · have htl : (d :: rest).length ≤ fuel := by
          simp only [List.length_cons]
          omega
        obtain ⟨segs2, tail2, g1, g2, g3, g4⟩ := ih (d :: rest) htl
        cases segs2 with
        | nil =>
          simp only [List.map_nil, List.flatten_nil, List.nil_append] at g1 g2
          refine ⟨[], c :: tail2, ?_, ?_, by simp, ?_⟩
          · simp only [List.map_nil, List.flatten_nil, List.nil_append]
            rw [← g1]
          · simp only [List.map_nil, List.flatten_nil, List.nil_append]
            rw [removeMLCGo, if_neg hcd, g2]
          · rw [← g1]
            rw [hasOpenMatch]
            rw [if_neg (by rintro ⟨hc2, hd2, _⟩; exact hcd ⟨hc2, hd2⟩)]
            rw [g1]
            exact g4
        | cons pr segs3 =>
          obtain ⟨a1, c1⟩ := pr
          refine ⟨(c :: a1, c1) :: segs3, tail2, ?_, ?_, ?_, g4⟩
          · simp only [List.map_cons, List.flatten_cons] at g1 ⊢
            simp only [List.cons_append, List.append_assoc] at g1 ⊢
            rw [g1]
          · rw [removeMLCGo, if_neg hcd, g2]
            simp only [List.map_cons, List.flatten_cons]
            simp only [List.cons_append, List.append_assoc]
          · intro p hp
            rcases List.mem_cons.mp hp with rfl | hp2
            · have hh := g3 (a1, c1) (by simp)
              refine ⟨?_, hh.2⟩
              cases ha1 : a1 with
              | nil => rfl
              | cons e a1tl =>
                have hed : e = d := by
                  rw [ha1] at g1
                  simp only [List.map_cons, List.flatten_cons, List.cons_append] at g1
                  injection g1 with h1 _
                  exact h1.symm
                rw [hasOpenMatch]
                rw [if_neg (by
                  rintro ⟨hc2, he2, _⟩
                  exact hcd ⟨hc2, by rw [← hed]; exact he2⟩)]
                have hh1 := hh.1
                rw [ha1] at hh1
                exact hh1
            · exact g3 p (List.mem_cons_of_mem _ hp2)

/-! ### Claim theorems about the comment normalizer -/

/-- C3: the comment normalizer admits a span decomposition: the input splits
into alternating untouched chunks (containing no regex match) and matched
spans (each a slash-star block closed by its first star-slash), with an
untouched match-free tail; the output is the same decomposition in which
every character outside a span appears verbatim and every character inside a
span is kept when it is a carriage return or a line feed and replaced by a
single space otherwise.  Consequently the total length and the number of
lines of the text are preserved. -/
theorem claim3_comment_normalizer_shape (text : List Char) :
    ∃ (segs : List (List Char × List Char)) (tail : List Char),
      text = (segs.map (fun p => p.1 ++ p.2)).flatten ++ tail ∧
      remove_multi_line_comments text
        = (segs.map (fun p => p.1 ++ blankChars p.2)).flatten ++ tail ∧
      (∀ p ∈ segs, hasOpenMatch p.1 = false ∧
        ∃ mid, p.2 = '/' :: '*' :: (mid ++ ['*', '/']) ∧ hasClose mid = false) ∧
      hasOpenMatch tail = false ∧
      (remove_multi_line_comments text).length = text.length ∧
      (rustLines (remove_multi_line_comments text)).length = (rustLines text).length := by
  obtain ⟨segs, tail, h1, h2, h3, h4⟩ := removeMLCGo_decomp text.length text le_rfl
  exact ⟨segs, tail, h1, h2, h3, h4,
    remove_multi_line_comments_length text, rm_lines_count text⟩

/-- Witness for C3 at a concrete input containing a multi-line comment,
together with the concrete normalized output. -/
theorem claim3_witness :
    remove_multi_line_comments (("ab/*c\nd*/e").toList) = (("ab   \n   e").toList) ∧
    (∃ (segs : List (List Char × List Char)) (tail : List Char),
      (("ab/*c\nd*/e").toList) = (segs.map (fun p => p.1 ++ p.2)).flatten ++ tail ∧
      remove_multi_line_comments (("ab/*c\nd*/e").toList)
        = (segs.map (fun p => p.1 ++ blankChars p.2)).flatten ++ tail ∧
      (∀ p ∈ segs, hasOpenMatch p.1 = false ∧
        ∃ mid, p.2 = '/' :: '*' :: (mid ++ ['*', '/']) ∧ hasClose mid = false) ∧
      hasOpenMatch tail = false ∧
      (remove_multi_line_comments (("ab/*c\nd*/e").toList)).length
        = (("ab/*c\nd*/e").toList).length ∧
      (rustLines (remove_multi_line_comments (("ab/*c\nd*/e").toList))).length
        = (rustLines (("ab/*c\nd*/e").toList)).length) :=
  ⟨rfl, claim3_comment_normalizer_shape (("ab/*c\nd*/e").toList)⟩

/-- C8: comment normalization is idempotent. -/
theorem claim8_idempotent (text : List Char) :
    remove_multi_line_comments (remove_multi_line_comments text)
      = remove_multi_line_comments text := by
  unfold remove_multi_line_comments
  rw [removeMLCGo_length]
  exact removeMLCGo_idem text.length text text.length text.length le_rfl le_rfl le_rfl

/-- Witness for C8 at a concrete input containing comments. -/
theorem claim8_witness :
    remove_multi_line_comments (remove_multi_line_comments (("a/*b*/ /*c".toList)))
      = remove_multi_line_comments (("a/*b*/ /*c").toList) :=
  claim8_idempotent (("a/*b*/ /*c").toList)

/-! ### Lemmas about trimming -/

theorem dropWhile_head_not (l : List Char) (h : Char)
    (hh : (l.dropWhile isWs).head? = some h) : isWs h = false := by
  induction l with
  | nil => simp [List.dropWhile] at hh
  | cons c t ih =>
    rw [List.dropWhile] at hh
    cases hw : isWs c with
    | true => rw [hw] at hh; exact ih hh
    | false =>
      rw [hw] at hh
      simp only [List.head?] at hh
      cases hh
      exact hw

theorem dropWhile_id_of_head (l : List Char)
    (hl : ∀ h, l.head? = some h → isWs h = false) : l.dropWhile isWs = l := by
  cases l with
  | nil => rfl
  | cons c t =>
    rw [List.dropWhile, hl c rfl]

theorem dropWhile_append_last (A : List Char) (h : Char) (hh : isWs h = false) :
    (A ++ [h]).dropWhile isWs = A.dropWhile isWs ++ [h] := by
  induction A with
  | nil => simp [List.dropWhile, hh]
  | cons c t ih =>
    rw [List.cons_append, List.dropWhile, List.dropWhile]
    cases hw : isWs c with
    | true => exact ih
    | false => rfl

theorem trim_eq_self_of_edges (l : List Char)
    (h1 : ∀ h, l.head? = some h → isWs h = false)
    (h2 : ∀ h, l.getLast? = some h → isWs h = false) : trim l = l := by
  rw [trim, dropWhile_id_of_head l h1, dropWhile_id_of_head l.reverse
    (fun h hh => h2 h (by rwa [← List.head?_reverse])), List.reverse_reverse]

theorem trim_head (l : List Char) (h : Char)
    (hh : (trim l).head? = some h) : isWs h = false := by
  rw [trim, List.head?_reverse] at hh
  rcases hw : l.dropWhile isWs with _ | ⟨c, t⟩
  · rw [hw] at hh; simp at hh
  · have hc : isWs c = false := dropWhile_head_not l c (by rw [hw]; rfl)
    rw [hw, List.reverse_cons, dropWhile_append_last _ c hc,
      List.getLast?_concat] at hh
    cases hh
    exact hc

theorem trim_getLast (l : List Char) (h : Char)
    (hh : (trim l).getLast? = some h) : isWs h = false := by
  rw [trim, List.getLast?_reverse] at hh
  exact dropWhile_head_not _ h hh

/-- Trimming is idempotent. -/
theorem trim_trim (l : List Char) : trim (trim l) = trim l :=
  trim_eq_self_of_edges _ (trim_head l) (trim_getLast l)

/-- Joining two nonempty trimmed strings with a single space yields a
trimmed string. -/
theorem trim_append_space (v1 v2 : List Char) (h1 : v1 ≠ []) (ht1 : trim v1 = v1)
    (h2 : v2 ≠ []) (ht2 : trim v2 = v2) :
    trim (v1 ++ ' ' :: v2) = v1 ++ ' ' :: v2 := by
  refine trim_eq_self_of_edges _ ?_ ?_
  · intro h hh
    rcases v1 with _ | ⟨c, t⟩
    · exact absurd rfl h1
    · rw [List.cons_append] at hh
      simp only [List.head?] at hh
      have hch : c = h := by injection hh
      subst hch
      exact trim_head (c :: t) c (by rw [ht1]; rfl)
  · intro h hh
    rw [List.getLast?_append_cons] at hh
    rcases v2 with _ | ⟨c, t⟩
    · exact absurd rfl h2
    · rw [List.getLast?_cons_cons] at hh
      exact trim_getLast (c :: t) h (by rw [ht2]; exact hh)

/-! ### Lemmas about the line classifier -/

theorem parse_line_nil : parse_line ([] : List Char) = (LineType.Empty, []) := rfl

theorem tagCapture_trim (line t : List Char) (h : tagCapture line = some t) :
    trim t = t := by
  rw [tagCapture] at h
  repeat' split at h
  all_goals first
    | (injection h with h2; rw [← h2, trim_trim])
    | (simp at h)

theorem parse_line_some (line t : List Char) (h : tagCapture line = some t) :
    parse_line line = (LineType.Tag, t) := by
  rw [parse_line, h]

theorem parse_line_of_none (line : List Char) (h : tagCapture line = none) :
    parse_line line = if trim (truncDD line) = []
      then (LineType.Empty, trim (truncDD line))
      else (LineType.Query, trim (truncDD line)) := by
  rw [parse_line, h]

theorem parse_line_tag_val (line v : List Char)
    (h : parse_line line = (LineType.Tag, v)) : tagCapture line = some v := by
  cases hc : tagCapture line with
  | some t =>
    rw [parse_line_some line t hc] at h
    injection h with hty hv
    rw [hv]
  | none =>
    rw [parse_line_of_none line hc] at h
    split at h <;> exact absurd h (by simp)

theorem parse_line_query_val (line v : List Char)
    (h : parse_line line = (LineType.Query, v)) :
    v = trim (truncDD line) ∧ v ≠ [] ∧ trim v = v := by
  cases hc : tagCapture line with
  | some t =>
    rw [parse_line_some line t hc] at h
    exact absurd h (by simp)
  | none =>
    rw [parse_line_of_none line hc] at h
    split at h
    · exact absurd h (by simp)
    · rename_i hne
      injection h with hty hv
      refine ⟨hv.symm, ?_, ?_⟩
      · rw [← hv]; exact hne
      · rw [← hv, trim_trim]

theorem parse_line_ne_nil_of_tag (line v : List Char)
    (h : parse_line line = (LineType.Tag, v)) : ¬ line = [] := by
  intro hn
  subst hn
  rw [parse_line_nil] at h
  exact absurd h (by simp)

theorem parse_line_ne_nil_of_query (line v : List Char)
    (h : parse_line line = (LineType.Query, v)) : ¬ line = [] := by
  intro hn
  subst hn
  rw [parse_line_nil] at h
  exact absurd h (by simp)

/-! ### Lemmas about the scanner -/

theorem step_tag_ok (line v : List Char) (idx : Nat) (s : PState)
    (h : parse_line line = (LineType.Tag, v)) (hs : ¬ s.lastType = some LineType.Tag) :
    step line idx s = .ok ⟨s.queries, some LineType.Tag, some v⟩ := by
  rw [step, if_neg (parse_line_ne_nil_of_tag line v h), h]
  show (if s.lastType = some LineType.Tag
      then (Except.error (ParseError.TagOverwritten (idx + 1) v) : Except ParseError PState)
      else .ok ⟨s.queries, some LineType.Tag, some v⟩) = _
  rw [if_neg hs]

theorem step_tag_err (line v : List Char) (idx : Nat) (s : PState)
    (h : parse_line line = (LineType.Tag, v)) (hs : s.lastType = some LineType.Tag) :
    step line idx s = .error (ParseError.TagOverwritten (idx + 1) v) := by
  rw [step, if_neg (parse_line_ne_nil_of_tag line v h), h]
  show (if s.lastType = some LineType.Tag
      then (Except.error (ParseError.TagOverwritten (idx + 1) v) : Except ParseError PState)
      else .ok ⟨s.queries, some LineType.Tag, some v⟩) = _
  rw [if_pos hs]

theorem step_query_ok (line v t : List Char) (idx : Nat) (s : PState)
    (h : parse_line line = (LineType.Query, v)) (hs : s.lastTag = some t) :
    step line idx s = .ok ⟨upsert s.queries t v, some LineType.Query, some t⟩ := by
  rw [step, if_neg (parse_line_ne_nil_of_query line v h), h]
  show (match s.lastTag with
      | none => (Except.error (ParseError.QueryWithoutTag (idx + 1) v) : Except ParseError PState)
      | some t2 => .ok ⟨upsert s.queries t2 v, some LineType.Query, some t2⟩) = _
  rw [hs]

theorem step_query_err (line v : List Char) (idx : Nat) (s : PState)
    (h : parse_line line = (LineType.Query, v)) (hs : s.lastTag = none) :
    step line idx s = .error (ParseError.QueryWithoutTag (idx + 1) v) := by
  rw [step, if_neg (parse_line_ne_nil_of_query line v h), h]
  show (match s.lastTag with
      | none => (Except.error (ParseError.QueryWithoutTag (idx + 1) v) : Except ParseError PState)
      | some t2 => .ok ⟨upsert s.queries t2 v, some LineType.Query, some t2⟩) = _
  rw [hs]

theorem step_empty (line : List Char) (idx : Nat) (s : PState)
    (h : (parse_line line).1 = LineType.Empty) : step line idx s = .ok s := by
  rw [step]
  by_cases hnil : line = []
  · rw [if_pos hnil]
  · rw [if_neg hnil]
    rcases hpl : parse_line line with ⟨ty, v⟩
    rw [hpl] at h
    simp only at h
    subst h
    rfl

theorem scanLines_cons_err (l : List Char) (rest : List (List Char)) (idx : Nat)
    (s : PState) (e : ParseError) (h : step l idx s = .error e) :
    scanLines (l :: rest) idx s = .error e := by
  rw [scanLines, h]

theorem scanLines_cons_ok (l : List Char) (rest : List (List Char)) (idx : Nat)
    (s s2 : PState) (h : step l idx s = .ok s2) :
    scanLines (l :: rest) idx s = scanLines rest (idx + 1) s2 := by
  rw [scanLines, h]

theorem scanLines_empties (ls : List (List Char))
    (hls : ∀ l ∈ ls, (parse_line l).1 = LineType.Empty) (idx : Nat) (s : PState) :
    scanLines ls idx s = .ok s := by
  induction ls generalizing idx with
  | nil => rfl
  | cons l t ih =>
    rw [scanLines_cons_ok l t idx s s (step_empty l idx s (hls l (by simp)))]
    exact ih (fun x hx => hls x (List.mem_cons_of_mem _ hx)) (idx + 1)

theorem scanLines_append_ok (a b : List (List Char)) (idx : Nat) (s s2 : PState)
    (h : scanLines a idx s = .ok s2) :
    scanLines (a ++ b) idx s = scanLines b (idx + a.length) s2 := by
  induction a generalizing idx s with
  | nil =>
    rw [scanLines] at h
    injection h with h2
    subst h2
    simp
  | cons l a2 ih =>
    cases hstep : step l idx s with
    | error e =>
      rw [scanLines_cons_err l a2 idx s e hstep] at h
      exact absurd h (by simp)
    | ok s3 =>
      rw [scanLines_cons_ok l a2 idx s s3 hstep] at h
      rw [List.cons_append, scanLines_cons_ok l (a2 ++ b) idx s s3 hstep,
        ih (idx + 1) s3 h]
      have harith : idx + 1 + a2.length = idx + (l :: a2).length := by
        simp only [List.length_cons]; omega
      rw [harith]

theorem parse_error_of_scan (text : List Char) (e : ParseError)
    (h : scanLines (rustLines (remove_multi_line_comments text)) 0 initState = .error e) :
    parse text = .error e := by
  rw [parse, h]

theorem parse_ok_of_scan (text : List Char) (s : PState)
    (h : scanLines (rustLines (remove_multi_line_comments text)) 0 initState = .ok s) :
    parse text = .ok s.queries := by
  rw [parse, h]

/-! ### Claim theorems: errors, classification, dangling tags -/

/-- C1: whenever a tag-declaration line is followed, across blank or
comment-only lines, by another tag-declaration line, and the scan reaches the
first of the two without error and without an immediately preceding tag,
`parse` fails with `TagOverwritten` carrying the 1-indexed line number of the
second tag line and that tag's trimmed text. -/
theorem claim1_tag_overwritten (text : List Char) (pre mid suffix : List (List Char))
    (lt1 lt2 t1 t2 : List Char) (s : PState)
    (hsplit : rustLines (remove_multi_line_comments text) = pre ++ lt1 :: (mid ++ lt2 :: suffix))
    (hpre : scanLines pre 0 initState = .ok s)
    (hs : ¬ s.lastType = some LineType.Tag)
    (h1 : parse_line lt1 = (LineType.Tag, t1))
    (hmid : ∀ l ∈ mid, (parse_line l).1 = LineType.Empty)
    (h2 : parse_line lt2 = (LineType.Tag, t2)) :
    parse text = .error (ParseError.TagOverwritten (pre.length + mid.length + 2) t2) := by
  refine parse_error_of_scan text _ ?_
  rw [hsplit, scanLines_append_ok pre _ 0 initState s hpre, Nat.zero_add,
    scanLines_cons_ok _ _ _ _ _ (step_tag_ok lt1 t1 pre.length s h1 hs),
    scanLines_append_ok mid _ (pre.length + 1) _ _
      (scanLines_empties mid hmid _ ⟨s.queries, some LineType.Tag, some t1⟩),
    scanLines_cons_err _ _ _ _ _ (step_tag_err lt2 t2 _ _ h2 rfl)]
  have harith : pre.length + 1 + mid.length + 1 = pre.length + mid.length + 2 := by omega
  rw [harith]

/-- Witness for C1: the spec example, two adjacent tag declarations. -/
theorem claim1_witness :
    parse (("--name: x\n--name: x").toList)
      = .error (ParseError.TagOverwritten 2 (("x").toList)) :=
  claim1_tag_overwritten (("--name: x\n--name: x").toList) [] [] []
    (("--name: x").toList) (("--name: x").toList) (("x").toList) (("x").toList)
    initState rfl rfl (by decide) rfl (by simp) rfl

/-- C2: when every line before some line is blank or comment-only and that
line classifies as a query, `parse` fails with `QueryWithoutTag` carrying the
line's 1-indexed number and the fragment's trimmed text. -/
theorem claim2_query_without_tag (text : List Char) (pre suffix : List (List Char))
    (lq q : List Char)
    (hsplit : rustLines (remove_multi_line_comments text) = pre ++ lq :: suffix)
    (hpre : ∀ l ∈ pre, (parse_line l).1 = LineType.Empty)
    (hq : parse_line lq = (LineType.Query, q)) :
    parse text = .error (ParseError.QueryWithoutTag (pre.length + 1) q) := by
  refine parse_error_of_scan text _ ?_
  rw [hsplit, scanLines_append_ok pre _ 0 initState initState
      (scanLines_empties pre hpre 0 initState), Nat.zero_add]
  exact scanLines_cons_err _ _ _ _ _ (step_query_err lq q pre.length initState hq rfl)

/-- Witness for C2: the spec example, a query before any tag. -/
theorem claim2_witness :
    parse (("SELECT 1;").toList)
      = .error (ParseError.QueryWithoutTag 1 (("SELECT 1;").toList)) :=
  claim2_query_without_tag (("SELECT 1;").toList) [] [] (("SELECT 1;").toList)
    (("SELECT 1;").toList) rfl (by simp) rfl

/-- C4: the classifier tries the anchored tag pattern first; on every line
where it does not match, the classification is never Tag and the value is the
line truncated at the first occurrence of two hyphens and then trimmed; in
particular a tag-like substring in a trailing comment yields a Query. -/
theorem claim4_tag_anchored (line : List Char) (h : tagCapture line = none) :
    (parse_line line).1 ≠ LineType.Tag ∧
    (parse_line line).2 = trim (truncDD line) ∧
    parse_line (("0 -- name: start").toList) = (LineType.Query, ("0").toList) := by
  rw [parse_line_of_none line h]
  refine ⟨?_, ?_, rfl⟩
  · by_cases he : trim (truncDD line) = [] <;> simp [he]
  · by_cases he : trim (truncDD line) = [] <;> simp [he]

/-- Witness for C4 at the spec example line. -/
theorem claim4_witness :
    tagCapture (("0 -- name: start").toList) = none ∧
    ((parse_line (("0 -- name: start").toList)).1 ≠ LineType.Tag ∧
      (parse_line (("0 -- name: start").toList)).2
        = trim (truncDD (("0 -- name: start").toList)) ∧
      parse_line (("0 -- name: start").toList) = (LineType.Query, ("0").toList)) :=
  ⟨rfl, claim4_tag_anchored (("0 -- name: start").toList) rfl⟩

/-- C7 counterexample: the line consisting of two hyphens, `name` and a colon
is classified as a Tag whose value is the empty string, so a tag extracted
from a declaration line is not always non-empty. -/
theorem claim7_counterexample :
    (parse_line (("--name:").toList)).1 = LineType.Tag ∧
    (parse_line (("--name:").toList)).2 = [] :=
  ⟨rfl, rfl⟩

/-- C7 (amended): every line the classifier marks as Tag carries a trimmed
tag value (no leading or trailing whitespace); the value may be empty. -/
theorem claim7_tag_trimmed (line v : List Char)
    (h : parse_line line = (LineType.Tag, v)) : trim v = v :=
  tagCapture_trim line v (parse_line_tag_val line v h)

/-- Witness for the amended C7 at the spec example tag line. -/
theorem claim7_witness :
    parse_line ((" --  name:start").toList) = (LineType.Tag, ("start").toList) ∧
    trim (("start").toList) = ("start").toList :=
  ⟨rfl, claim7_tag_trimmed ((" --  name:start").toList) (("start").toList) rfl⟩

/-- C9: a tag declared on the last classified line, with only blank or
comment-only lines after it, contributes nothing to the output: parse
succeeds with the map accumulated before the declaration, in which the fresh
tag does not appear; in particular a single tag-declaration line and the
empty input both parse to the empty map. -/
theorem claim9_dangling_tag (text : List Char) (pre post : List (List Char))
    (lt t : List Char) (s : PState)
    (hsplit : rustLines (remove_multi_line_comments text) = pre ++ lt :: post)
    (hpre : scanLines pre 0 initState = .ok s)
    (hs : ¬ s.lastType = some LineType.Tag)
    (hlt : parse_line lt = (LineType.Tag, t))
    (hpost : ∀ l ∈ post, (parse_line l).1 = LineType.Empty)
    (hfresh : t ∉ s.queries.map Prod.fst) :
    parse text = .ok s.queries ∧ t ∉ s.queries.map Prod.fst ∧
    parse (("--name: x").toList) = .ok [] ∧ parse ([] : List Char) = .ok [] := by
  refine ⟨?_, hfresh, rfl, rfl⟩
  refine parse_ok_of_scan text ⟨s.queries, some LineType.Tag, some t⟩ ?_
  rw [hsplit, scanLines_append_ok pre _ 0 initState s hpre, Nat.zero_add,
    scanLines_cons_ok _ _ _ _ _ (step_tag_ok lt t pre.length s hlt hs)]
  exact scanLines_empties post hpost _ _

/-- Witness for C9 at the single tag-declaration line. -/
theorem claim9_witness :
    parse (("--name: x").toList) = .ok initState.queries ∧
    (("x").toList) ∉ initState.queries.map Prod.fst ∧
    parse (("--name: x").toList) = .ok [] ∧ parse ([] : List Char) = .ok [] :=
  claim9_dangling_tag (("--name: x").toList) [] [] (("--name: x").toList)
    (("x").toList) initState rfl rfl (by decide) rfl (by simp) (by simp [initState])

/-! ### Invariant: values of the accumulated map are nonempty and trimmed -/

theorem upsert_wellTrimmed : ∀ (m : List (List Char × List Char)) (t v : List Char),
    (∀ p ∈ m, p.2 ≠ [] ∧ trim p.2 = p.2) → v ≠ [] → trim v = v →
    ∀ p ∈ upsert m t v, p.2 ≠ [] ∧ trim p.2 = p.2 := by
  intro m
  induction m with
  | nil =>
    intro t v _ hv1 hv2 p hp
    rw [upsert] at hp
    simp only [List.mem_singleton] at hp
    subst hp
    exact ⟨hv1, hv2⟩
  | cons kv rest ih =>
    obtain ⟨k2, v2⟩ := kv
    intro t v hm hv1 hv2 p hp
    rw [upsert] at hp
    by_cases hk : k2 = t
    · rw [if_pos hk] at hp
      rcases List.mem_cons.mp hp with rfl | hp2
      · have h2 := hm (k2, v2) (by simp)
        exact ⟨by simp, trim_append_space v2 v h2.1 h2.2 hv1 hv2⟩
      · exact hm p (List.mem_cons_of_mem _ hp2)
    · rw [if_neg hk] at hp
      rcases List.mem_cons.mp hp with rfl | hp2
      · exact hm (k2, v2) (by simp)
      · exact ih t v (fun q hq => hm q (List.mem_cons_of_mem _ hq)) hv1 hv2 p hp2

theorem scanLines_preserve (P : PState → Prop)
    (hstep : ∀ l idx s s2, P s → step l idx s = .ok s2 → P s2) :
    ∀ (ls : List (List Char)) (idx : Nat) (s s2 : PState),
    P s → scanLines ls idx s = .ok s2 → P s2 := by
  intro ls
  induction ls with
  | nil =>
    intro idx s s2 hP h
    rw [scanLines] at h
    injection h with h2
    rwa [← h2]
  | cons l rest ih =>
    intro idx s s2 hP h
    cases hstep2 : step l idx s with
    | error e =>
      rw [scanLines_cons_err _ _ _ _ _ hstep2] at h
      exact absurd h (by simp)
    | ok s3 =>
      rw [scanLines_cons_ok _ _ _ _ _ hstep2] at h
      exact ih (idx + 1) s3 s2 (hstep l idx s s3 hP hstep2) h

theorem step_wellTrimmed (l : List Char) (idx : Nat) (s s2 : PState)
    (hP : ∀ p ∈ s.queries, p.2 ≠ [] ∧ trim p.2 = p.2)
    (h : step l idx s = .ok s2) : ∀ p ∈ s2.queries, p.2 ≠ [] ∧ trim p.2 = p.2 := by
  rcases hpl : parse_line l with ⟨ty, v⟩
  cases ty with
  | Empty =>
    rw [step_empty l idx s (by rw [hpl])] at h
    injection h with h2
    subst h2
    exact hP
  | Tag =>
    by_cases hlt : s.lastType = some LineType.Tag
    · rw [step_tag_err l v idx s hpl hlt] at h
      exact absurd h (by simp)
    · rw [step_tag_ok l v idx s hpl hlt] at h
      injection h with h2
      subst h2
      exact hP
  | Query =>
    cases hlast : s.lastTag with
    | none =>
      rw [step_query_err l v idx s hpl hlast] at h
      exact absurd h (by simp)
    | some t =>
      rw [step_query_ok l v t idx s hpl hlast] at h
      injection h with h2
      subst h2
      obtain ⟨_, hv1, hv2⟩ := parse_line_query_val l v hpl
      exact upsert_wellTrimmed s.queries t v hP hv1 hv2

/-- C10: every value in a successful output map is nonempty and carries no
leading or trailing whitespace. -/
theorem claim10_values_trimmed (text : List Char) (m : List (List Char × List Char))
    (h : parse text = .ok m) : ∀ p ∈ m, p.2 ≠ [] ∧ trim p.2 = p.2 := by
  rw [parse] at h
  cases hscan : scanLines (rustLines (remove_multi_line_comments text)) 0 initState with
  | error e =>
    rw [hscan] at h
    exact absurd h (by simp)
  | ok s =>
    rw [hscan] at h
    injection h with h2
    subst h2
    exact scanLines_preserve (fun st => ∀ p ∈ st.queries, p.2 ≠ [] ∧ trim p.2 = p.2)
      step_wellTrimmed _ 0 initState s (by simp [initState]) hscan

/-- Witness for C10 at an input with padded fragments. -/
theorem claim10_witness :
    parse (("--name: x\n a \n b ").toList) = .ok [((("x").toList), (("a b").toList))] ∧
    (∀ p ∈ [((("x").toList), (("a b").toList))], p.2 ≠ [] ∧ trim p.2 = p.2) :=
  ⟨rfl, claim10_values_trimmed (("--name: x\n a \n b ").toList) _ rfl⟩

/-! ### Key order: first-declaration order of tags -/

/-- The tag declared by a line, when the classifier marks it as Tag. -/
def tagOf (l : List Char) : Option (List Char) :=
  if (parse_line l).1 = LineType.Tag then some (parse_line l).2 else none

/-- All tag declarations of a line sequence, in order. -/
def tagDecls (ls : List (List Char)) : List (List Char) :=
  ls.filterMap tagOf

def firstOccAux : List (List Char) → List (List Char) → List (List Char)
  | acc, [] => acc
  | acc, x :: xs => if x ∈ acc then firstOccAux acc xs else firstOccAux (acc ++ [x]) xs

/-- The sequence restricted to the first occurrence of each element. -/
def firstOcc (l : List (List Char)) : List (List Char) := firstOccAux [] l

/-- Leftover key of the scanner state: the active tag when it has not yet
received a query fragment. -/
def extraOf (s : PState) : List (List Char) :=
  match s.lastTag with
  | none => []
  | some t => if t ∈ s.queries.map Prod.fst then [] else [t]

theorem tagOf_of_tag (l v : List Char) (h : parse_line l = (LineType.Tag, v)) :
    tagOf l = some v := by
  rw [tagOf, h]
  simp

theorem tagOf_of_not_tag (l : List Char) (h : ¬ (parse_line l).1 = LineType.Tag) :
    tagOf l = none := by
  rw [tagOf, if_neg h]

theorem tagDecls_append (a b : List (List Char)) :
    tagDecls (a ++ b) = tagDecls a ++ tagDecls b := by
  rw [tagDecls, tagDecls, tagDecls, List.filterMap_append]

theorem tagDecls_tag (l v : List Char) (h : parse_line l = (LineType.Tag, v)) :
    tagDecls [l] = [v] := by
  rw [tagDecls, List.filterMap]
  rw [tagOf_of_tag l v h]
  rfl

theorem tagDecls_not_tag (l : List Char) (h : ¬ (parse_line l).1 = LineType.Tag) :
    tagDecls [l] = [] := by
  rw [tagDecls, List.filterMap]
  rw [tagOf_of_not_tag l h]
  rfl

theorem firstOccAux_append (xs : List (List Char)) : ∀ (acc ys : List (List Char)),
    firstOccAux acc (xs ++ ys) = firstOccAux (firstOccAux acc xs) ys := by
  induction xs with
  | nil => intro acc ys; rfl
  | cons x xs2 ih =>
    intro acc ys
    rw [List.cons_append, firstOccAux, firstOccAux]
    by_cases hx : x ∈ acc
    · rw [if_pos hx, if_pos hx, ih]
    · rw [if_neg hx, if_neg hx, ih]

theorem firstOcc_append_one (X : List (List Char)) (v : List Char) :
    firstOcc (X ++ [v]) = if v ∈ firstOcc X then firstOcc X else firstOcc X ++ [v] := by
  rw [firstOcc, firstOccAux_append X [] [v], ← firstOcc]
  rw [firstOccAux]
  by_cases hv : v ∈ firstOcc X <;> simp [hv, firstOccAux]

theorem upsert_keys (m : List (List Char × List Char)) (k v : List Char) :
    (upsert m k v).map Prod.fst = if k ∈ m.map Prod.fst
      then m.map Prod.fst else m.map Prod.fst ++ [k] := by
  induction m with
  | nil => simp [upsert]
  | cons kv rest ih =>
    obtain ⟨k2, v2⟩ := kv
    rw [upsert]
    by_cases hk : k2 = k
    · rw [if_pos hk]
      have hmem : k ∈ ((k2, v2) :: rest).map Prod.fst := by
        rw [hk]; simp
      rw [if_pos hmem]
      simp
    · rw [if_neg hk]
      simp only [List.map_cons]
      rw [ih]
      have hne : ¬ k = k2 := fun hkk => hk hkk.symm
      by_cases hmem : k ∈ rest.map Prod.fst
      · rw [if_pos hmem, if_pos (by simp [hmem])]
      · rw [if_neg hmem, if_neg (by simp [hne, hmem])]
        simp

theorem extraOf_none (s : PState) (h : s.lastTag = none) : extraOf s = [] := by
  rw [extraOf, h]

theorem extraOf_some (s : PState) (t : List Char) (h : s.lastTag = some t) :
    extraOf s = if t ∈ s.queries.map Prod.fst then [] else [t] := by
  rw [extraOf, h]

theorem step_keyOrder (L : List (List Char)) (l : List Char) (idx : Nat) (s s2 : PState)
    (h1 : firstOcc (tagDecls L) = s.queries.map Prod.fst ++ extraOf s)
    (h2 : ∀ t, s.lastTag = some t → t ∈ tagDecls L)
    (h3 : ∀ t, s.lastTag = some t → t ∉ s.queries.map Prod.fst →
      s.lastType = some LineType.Tag)
    (hstep : step l idx s = .ok s2) :
    firstOcc (tagDecls (L ++ [l])) = s2.queries.map Prod.fst ++ extraOf s2 ∧
    (∀ t, s2.lastTag = some t → t ∈ tagDecls (L ++ [l])) ∧
    (∀ t, s2.lastTag = some t → t ∉ s2.queries.map Prod.fst →
      s2.lastType = some LineType.Tag) := by
  rcases hpl : parse_line l with ⟨ty, v⟩
  cases ty with
  | Empty =>
    rw [step_empty l idx s (by rw [hpl])] at hstep
    injection hstep with hs2
    subst hs2
    rw [tagDecls_append, tagDecls_not_tag l (by rw [hpl]; simp), List.append_nil]
    exact ⟨h1, h2, h3⟩
  | Tag =>
    by_cases hlt : s.lastType = some LineType.Tag
    · rw [step_tag_err l v idx s hpl hlt] at hstep
      exact absurd hstep (by simp)
    · rw [step_tag_ok l v idx s hpl hlt] at hstep
      injection hstep with hs2
      have hq : s2.queries = s.queries := by rw [← hs2]
      have hlt2 : s2.lastType = some LineType.Tag := by rw [← hs2]
      have htag2 : s2.lastTag = some v := by rw [← hs2]
      have hex : extraOf s = [] := by
        cases hlast : s.lastTag with
        | none => exact extraOf_none s hlast
        | some t =>
          rw [extraOf_some s t hlast]
          by_cases hmem : t ∈ s.queries.map Prod.fst
          · rw [if_pos hmem]
          · exact absurd (h3 t hlast hmem) hlt
      rw [hex, List.append_nil] at h1
      refine ⟨?_, ?_, ?_⟩
      · rw [tagDecls_append, tagDecls_tag l v hpl, firstOcc_append_one, h1, hq,
          extraOf_some s2 v htag2, hq]
        by_cases hv : v ∈ s.queries.map Prod.fst <;> simp [hv]
      · intro t ht
        rw [htag2] at ht
        injection ht with hv2
        subst hv2
        rw [tagDecls_append, tagDecls_tag l v hpl]
        simp
      · intro t _ _
        exact hlt2
  | Query =>
    cases hlast : s.lastTag with
    | none =>
      rw [step_query_err l v idx s hpl hlast] at hstep
      exact absurd hstep (by simp)
    | some t =>
      rw [step_query_ok l v t idx s hpl hlast] at hstep
      injection hstep with hs2
      have hq : s2.queries = upsert s.queries t v := by rw [← hs2]
      have hlt2 : s2.lastType = some LineType.Query := by rw [← hs2]
      have htag2 : s2.lastTag = some t := by rw [← hs2]
      rw [tagDecls_append, tagDecls_not_tag l (by rw [hpl]; simp), List.append_nil]
      have hextra : extraOf s = if t ∈ s.queries.map Prod.fst then [] else [t] :=
        extraOf_some s t hlast
      have hkeys2 : (upsert s.queries t v).map Prod.fst
          = if t ∈ s.queries.map Prod.fst then s.queries.map Prod.fst
            else s.queries.map Prod.fst ++ [t] := upsert_keys s.queries t v
      have htk : t ∈ (upsert s.queries t v).map Prod.fst := by
        rw [hkeys2]
        by_cases hmem : t ∈ s.queries.map Prod.fst
        · rw [if_pos hmem]; exact hmem
        · rw [if_neg hmem]; simp
      have hex2 : extraOf s2 = [] := by
        rw [extraOf_some s2 t htag2, hq]
        exact if_pos htk
      refine ⟨?_, ?_, ?_⟩
      · rw [hex2, List.append_nil, hq, hkeys2, h1, hextra]
        by_cases hmem : t ∈ s.queries.map Prod.fst <;> simp [hmem]
      · intro t2 ht2
        rw [htag2] at ht2
        injection ht2 with ht3
        subst ht3
        exact h2 t hlast
      · intro t2 ht2 hmem2
        rw [htag2] at ht2
        injection ht2 with ht3
        subst ht3
        rw [hq] at hmem2
        exact absurd htk hmem2

theorem scanLines_keyOrder : ∀ (ls : List (List Char)) (idx : Nat) (s s2 : PState)
    (L : List (List Char)),
    firstOcc (tagDecls L) = s.queries.map Prod.fst ++ extraOf s →
    (∀ t, s.lastTag = some t → t ∈ tagDecls L) →
    (∀ t, s.lastTag = some t → t ∉ s.queries.map Prod.fst →
      s.lastType = some LineType.Tag) →
    scanLines ls idx s = .ok s2 →
    firstOcc (tagDecls (L ++ ls)) = s2.queries.map Prod.fst ++ extraOf s2 ∧
    (∀ t, s2.lastTag = some t → t ∈ tagDecls (L ++ ls)) ∧
    (∀ t, s2.lastTag = some t → t ∉ s2.queries.map Prod.fst →
      s2.lastType = some LineType.Tag) := by
  intro ls
  induction ls with
  | nil =>
    intro idx s s2 L h1 h2 h3 h
    rw [scanLines] at h
    injection h with hs2
    subst hs2
    rw [List.append_nil]
    exact ⟨h1, h2, h3⟩
  | cons l rest ih =>
    intro idx s s2 L h1 h2 h3 h
    cases hstep : step l idx s with
    | error e =>
      rw [scanLines_cons_err _ _ _ _ _ hstep] at h
      exact absurd h (by simp)
    | ok s3 =>
      rw [scanLines_cons_ok _ _ _ _ _ hstep] at h
      obtain ⟨g1, g2, g3⟩ := step_keyOrder L l idx s s3 h1 h2 h3 hstep
      have hres := ih (idx + 1) s3 s2 (L ++ [l]) g1 g2 g3 h
      rwa [List.append_assoc, List.singleton_append] at hres

/-- C6: on success the keys of the output map, in iteration order, are the
first-declaration-ordered tags of the input (a front segment of them in
general, and exactly all of them when every declared tag received a
fragment), independent of lexical order and of re-declarations. -/
theorem claim6_key_order (text : List Char) (m : List (List Char × List Char))
    (h : parse text = .ok m) :
    (∃ rest, firstOcc (tagDecls (rustLines (remove_multi_line_comments text)))
        = m.map Prod.fst ++ rest) ∧
    ((∀ t ∈ tagDecls (rustLines (remove_multi_line_comments text)),
        t ∈ m.map Prod.fst) →
      m.map Prod.fst
        = firstOcc (tagDecls (rustLines (remove_multi_line_comments text)))) := by
  rw [parse] at h
  cases hscan : scanLines (rustLines (remove_multi_line_comments text)) 0 initState with
  | error e =>
    rw [hscan] at h
    exact absurd h (by simp)
  | ok s =>
    rw [hscan] at h
    injection h with h2
    subst h2
    have hinv := scanLines_keyOrder (rustLines (remove_multi_line_comments text))
      0 initState s [] rfl (by intro t ht; simp [initState] at ht)
      (by intro t ht; simp [initState] at ht) hscan
    rw [List.nil_append] at hinv
    obtain ⟨g1, g2, _⟩ := hinv
    constructor
    · exact ⟨extraOf s, g1⟩
    · intro hall
      have hex : extraOf s = [] := by
        rw [extraOf]
        cases hlast : s.lastTag with
        | none => rfl
        | some t => exact if_pos (hall t (g2 t hlast))
      rw [g1, hex, List.append_nil]

/-- Witness for C6 on an input with two tags declared in non-lexical order. -/
theorem claim6_witness :
    (∃ rest,
      firstOcc (tagDecls (rustLines (remove_multi_line_comments
          (("--name: b\nq\n--name: a\nr").toList))))
        = ([((("b").toList), (("q").toList)), ((("a").toList), (("r").toList))]).map Prod.fst
          ++ rest) ∧
    ((∀ t ∈ tagDecls (rustLines (remove_multi_line_comments
          (("--name: b\nq\n--name: a\nr").toList))),
        t ∈ ([((("b").toList), (("q").toList)),
          ((("a").toList), (("r").toList))]).map Prod.fst) →
      ([((("b").toList), (("q").toList)), ((("a").toList), (("r").toList))]).map Prod.fst
        = firstOcc (tagDecls (rustLines (remove_multi_line_comments
            (("--name: b\nq\n--name: a\nr").toList))))) :=
  claim6_key_order (("--name: b\nq\n--name: a\nr").toList) _ rfl

/-! ### Fragment accounting: values are space-joins of fragment lists

`scanLinesF` is the scanner of `parse` instrumented to record, for each tag,
the list of query fragments attributed to it (in scan order) instead of the
joined string.  `projF` recovers the state of `parse`; the lockstep lemmas
show the two scanners agree, so every output value is the single-space join,
in input order, of the fragments collected for its tag. -/

structure FState where
  frags : List (List Char × List (List Char))
  lastType : Option LineType
  lastTag : Option (List Char)

def initF : FState := ⟨[], none, none⟩

def upsertFrag : List (List Char × List (List Char)) → List Char → List Char →
    List (List Char × List (List Char))
  | [], k, v => [(k, [v])]
  | (k2, vs) :: rest, k, v =>
    if k2 = k then (k2, vs ++ [v]) :: rest
    else (k2, vs) :: upsertFrag rest k v

def stepF (line : List Char) (idx : Nat) (f : FState) : Except ParseError FState :=
  if line = [] then .ok f
  else
    match parse_line line with
    | (LineType.Empty, _) => .ok f
    | (LineType.Tag, v) =>
      if f.lastType = some LineType.Tag then
        .error (ParseError.TagOverwritten (idx + 1) v)
      else
        .ok ⟨f.frags, some LineType.Tag, some v⟩
    | (LineType.Query, v) =>
      match f.lastTag with
      | none => .error (ParseError.QueryWithoutTag (idx + 1) v)
      | some t => .ok ⟨upsertFrag f.frags t v, some LineType.Query, some t⟩

def scanLinesF : List (List Char) → Nat → FState → Except ParseError FState
  | [], _, f => .ok f
  | l :: rest, idx, f =>
    match stepF l idx f with
    | .error e => .error e
    | .ok f2 => scanLinesF rest (idx + 1) f2

/-- Single-space join of a fragment list, in order. -/
def joinSpace : List (List Char) → List Char
  | [] => []
  | v :: rest => v ++ (rest.map (fun w => ' ' :: w)).flatten

def projEntry (p : List Char × List (List Char)) : List Char × List Char :=
  (p.1, joinSpace p.2)

def projF (f : FState) : PState :=
  ⟨f.frags.map projEntry, f.lastType, f.lastTag⟩

/-- The fragment lists collected by the instrumented scanner. -/
def parseFrags (text : List Char) :
    Except ParseError (List (List Char × List (List Char))) :=
  match scanLinesF (rustLines (remove_multi_line_comments text)) 0 initF with
  | .error e => .error e
  | .ok f => .ok f.frags

theorem joinSpace_one (v : List Char) : joinSpace [v] = v := by
  rw [joinSpace]
  simp

theorem joinSpace_snoc (vs : List (List Char)) (v : List Char) (h : vs ≠ []) :
    joinSpace (vs ++ [v]) = joinSpace vs ++ ' ' :: v := by
  cases vs with
  | nil => exact absurd rfl h
  | cons v0 rest =>
    rw [List.cons_append, joinSpace, joinSpace]
    simp

theorem upsertFrag_proj (m : List (List Char × List (List Char))) (t v : List Char)
    (hne : ∀ p ∈ m, p.2 ≠ []) :
    (upsertFrag m t v).map projEntry = upsert (m.map projEntry) t v := by
  induction m with
  | nil =>
    rw [upsertFrag]
    simp [upsert, projEntry, joinSpace_one]
  | cons kv rest ih =>
    obtain ⟨k2, vs⟩ := kv
    rw [upsertFrag]
    by_cases hk : k2 = t
    · rw [if_pos hk]
      simp only [List.map_cons, projEntry, upsert]
      rw [if_pos hk]
      rw [joinSpace_snoc vs v (hne (k2, vs) (by simp))]
    · rw [if_neg hk]
      simp only [List.map_cons, projEntry, upsert]
      rw [if_neg hk]
      rw [ih (fun q hq => hne q (List.mem_cons_of_mem _ hq))]

theorem upsertFrag_ne_nil (m : List (List Char × List (List Char))) (t v : List Char)
    (hne : ∀ p ∈ m, p.2 ≠ []) : ∀ p ∈ upsertFrag m t v, p.2 ≠ [] := by
  induction m with
  | nil =>
    intro p hp
    rw [upsertFrag] at hp
    simp only [List.mem_singleton] at hp
    subst hp
    simp
  | cons kv rest ih =>
    obtain ⟨k2, vs⟩ := kv
    intro p hp
    rw [upsertFrag] at hp
    by_cases hk : k2 = t
    · rw [if_pos hk] at hp
      rcases List.mem_cons.mp hp with rfl | hp2
      · simp
      · exact hne p (List.mem_cons_of_mem _ hp2)
    · rw [if_neg hk] at hp
      rcases List.mem_cons.mp hp with rfl | hp2
      · exact hne (k2, vs) (by simp)
      · exact ih (fun q hq => hne q (List.mem_cons_of_mem _ hq)) p hp2

theorem stepF_empty (line : List Char) (idx : Nat) (f : FState)
    (h : (parse_line line).1 = LineType.Empty) : stepF line idx f = .ok f := by
  rw [stepF]
  by_cases hnil : line = []
  · rw [if_pos hnil]
  · rw [if_neg hnil]
    rcases hpl : parse_line line with ⟨ty, v⟩
    rw [hpl] at h
    simp only at h
    subst h
    rfl

theorem stepF_tag_ok (line v : List Char) (idx : Nat) (f : FState)
    (h : parse_line line = (LineType.Tag, v)) (hs : ¬ f.lastType = some LineType.Tag) :
    stepF line idx f = .ok ⟨f.frags, some LineType.Tag, some v⟩ := by
  rw [stepF, if_neg (parse_line_ne_nil_of_tag line v h), h]
  show (if f.lastType = some LineType.Tag
      then (Except.error (ParseError.TagOverwritten (idx + 1) v) : Except ParseError FState)
      else .ok ⟨f.frags, some LineType.Tag, some v⟩) = _
  rw [if_neg hs]

theorem stepF_tag_err (line v : List Char) (idx : Nat) (f : FState)
    (h : parse_line line = (LineType.Tag, v)) (hs : f.lastType = some LineType.Tag) :
    stepF line idx f = .error (ParseError.TagOverwritten (idx + 1) v) := by
  rw [stepF, if_neg (parse_line_ne_nil_of_tag line v h), h]
  show (if f.lastType = some LineType.Tag
      then (Except.error (ParseError.TagOverwritten (idx + 1) v) : Except ParseError FState)
      else .ok ⟨f.frags, some LineType.Tag, some v⟩) = _
  rw [if_pos hs]

theorem stepF_query_ok (line v t : List Char) (idx : Nat) (f : FState)
    (h : parse_line line = (LineType.Query, v)) (hs : f.lastTag = some t) :
    stepF line idx f = .ok ⟨upsertFrag f.frags t v, some LineType.Query, some t⟩ := by
  rw [stepF, if_neg (parse_line_ne_nil_of_query line v h), h]
  show (match f.lastTag with
      | none => (Except.error (ParseError.QueryWithoutTag (idx + 1) v) : Except ParseError FState)
      | some t2 => .ok ⟨upsertFrag f.frags t2 v, some LineType.Query, some t2⟩) = _
  rw [hs]

theorem stepF_query_err (line v : List Char) (idx : Nat) (f : FState)
    (h : parse_line line = (LineType.Query, v)) (hs : f.lastTag = none) :
    stepF line idx f = .error (ParseError.QueryWithoutTag (idx + 1) v) := by
  rw [stepF, if_neg (parse_line_ne_nil_of_query line v h), h]
  show (match f.lastTag with
      | none => (Except.error (ParseError.QueryWithoutTag (idx + 1) v) : Except ParseError FState)
      | some t2 => .ok ⟨upsertFrag f.frags t2 v, some LineType.Query, some t2⟩) = _
  rw [hs]

theorem stepF_proj (l : List Char) (idx : Nat) (f : FState)
    (hne : ∀ p ∈ f.frags, p.2 ≠ []) :
    (∀ e, stepF l idx f = .error e → step l idx (projF f) = .error e) ∧
    (∀ f2, stepF l idx f = .ok f2 →
      step l idx (projF f) = .ok (projF f2) ∧ ∀ p ∈ f2.frags, p.2 ≠ []) := by
  rcases hpl : parse_line l with ⟨ty, v⟩
  cases ty with
  | Empty =>
    constructor
    · intro e he
      rw [stepF_empty l idx f (by rw [hpl])] at he
      exact absurd he (by simp)
    · intro f2 hf2
      rw [stepF_empty l idx f (by rw [hpl])] at hf2
      injection hf2 with hf3
      subst hf3
      exact ⟨step_empty l idx (projF f) (by rw [hpl]), hne⟩
  | Tag =>
    by_cases hlt : f.lastType = some LineType.Tag
    · constructor
      · intro e he
        rw [stepF_tag_err l v idx f hpl hlt] at he
        injection he with he2
        subst he2
        exact step_tag_err l v idx (projF f) hpl hlt
      · intro f2 hf2
        rw [stepF_tag_err l v idx f hpl hlt] at hf2
        exact absurd hf2 (by simp)
    · constructor
      · intro e he
        rw [stepF_tag_ok l v idx f hpl hlt] at he
        exact absurd he (by simp)
      · intro f2 hf2
        rw [stepF_tag_ok l v idx f hpl hlt] at hf2
        injection hf2 with hf3
        refine ⟨?_, ?_⟩
        · rw [step_tag_ok l v idx (projF f) hpl hlt, ← hf3]
          rfl
        · intro p hp
          rw [← hf3] at hp
          exact hne p hp
  | Query =>
    cases hlast : f.lastTag with
    | none =>
      constructor
      · intro e he
        rw [stepF_query_err l v idx f hpl hlast] at he
        injection he with he2
        subst he2
        exact step_query_err l v idx (projF f) hpl hlast
      · intro f2 hf2
        rw [stepF_query_err l v idx f hpl hlast] at hf2
        exact absurd hf2 (by simp)
    | some t =>
      constructor
      · intro e he
        rw [stepF_query_ok l v t idx f hpl hlast] at he
        exact absurd he (by simp)
      · intro f2 hf2
        rw [stepF_query_ok l v t idx f hpl hlast] at hf2
        injection hf2 with hf3
        refine ⟨?_, ?_⟩
        · rw [step_query_ok l v t idx (projF f) hpl hlast, ← hf3]
          show Except.ok (⟨upsert (projF f).queries t v, some LineType.Query,
            some t⟩ : PState) = Except.ok (projF ⟨upsertFrag f.frags t v,
              some LineType.Query, some t⟩)
          rw [projF, projF]
          show Except.ok (⟨upsert (f.frags.map projEntry) t v, some LineType.Query,
            some t⟩ : PState) = _
          rw [← upsertFrag_proj f.frags t v hne]
        · intro p hp
          rw [← hf3] at hp
          exact upsertFrag_ne_nil f.frags t v hne p hp

theorem scanLinesF_cons_err (l : List Char) (rest : List (List Char)) (idx : Nat)
    (f : FState) (e : ParseError) (h : stepF l idx f = .error e) :
    scanLinesF (l :: rest) idx f = .error e := by
  rw [scanLinesF, h]

theorem scanLinesF_cons_ok (l : List Char) (rest : List (List Char)) (idx : Nat)
    (f f2 : FState) (h : stepF l idx f = .ok f2) :
    scanLinesF (l :: rest) idx f = scanLinesF rest (idx + 1) f2 := by
  rw [scanLinesF, h]

theorem scanLinesF_proj : ∀ (ls : List (List Char)) (idx : Nat) (f : FState),
    (∀ p ∈ f.frags, p.2 ≠ []) →
    (∀ e, scanLinesF ls idx f = .error e → scanLines ls idx (projF f) = .error e) ∧
    (∀ f2, scanLinesF ls idx f = .ok f2 →
      scanLines ls idx (projF f) = .ok (projF f2) ∧ ∀ p ∈ f2.frags, p.2 ≠ []) := by
  intro ls
  induction ls with
  | nil =>
    intro idx f hne
    constructor
    · intro e he
      rw [scanLinesF] at he
      exact absurd he (by simp)
    · intro f2 hf2
      rw [scanLinesF] at hf2
      injection hf2 with hf3
      subst hf3
      exact ⟨rfl, hne⟩
  | cons l rest ih =>
    intro idx f hne
    cases hstep : stepF l idx f with
    | error e0 =>
      have hstep2 : step l idx (projF f) = .error e0 :=
        (stepF_proj l idx f hne).1 e0 hstep
      constructor
      · intro e he
        rw [scanLinesF_cons_err l rest idx f e0 hstep] at he
        injection he with he2
        rw [he2] at hstep2
        exact scanLines_cons_err l rest idx (projF f) e hstep2
      · intro f2 hf2
        rw [scanLinesF_cons_err l rest idx f e0 hstep] at hf2
        exact absurd hf2 (by simp)
    | ok f3 =>
      obtain ⟨hstep2, hne3⟩ := (stepF_proj l idx f hne).2 f3 hstep
      constructor
      · intro e he
        rw [scanLinesF_cons_ok l rest idx f f3 hstep] at he
        rw [scanLines_cons_ok l rest idx (projF f) (projF f3) hstep2]
        exact (ih (idx + 1) f3 hne3).1 e he
      · intro f2 hf2
        rw [scanLinesF_cons_ok l rest idx f f3 hstep] at hf2
        rw [scanLines_cons_ok l rest idx (projF f) (projF f3) hstep2]
        exact (ih (idx + 1) f3 hne3).2 f2 hf2

/-- C5: on success every value of the output map is the single-space join,
in scan order, of the (one or more) query fragments collected for its tag by
the instrumented scanner. -/
theorem claim5_fragments_joined (text : List Char) (m : List (List Char × List Char))
    (h : parse text = .ok m) :
    ∃ fm, parseFrags text = .ok fm ∧
      m = fm.map (fun p => (p.1, joinSpace p.2)) ∧ ∀ p ∈ fm, p.2 ≠ [] := by
  rw [parse] at h
  cases hscan : scanLines (rustLines (remove_multi_line_comments text)) 0 initState with
  | error e =>
    rw [hscan] at h
    exact absurd h (by simp)
  | ok s =>
    rw [hscan] at h
    injection h with h2
    cases hscanF : scanLinesF (rustLines (remove_multi_line_comments text)) 0 initF with
    | error e =>
      have he := (scanLinesF_proj _ 0 initF (by simp [initF])).1 e hscanF
      rw [show projF initF = initState from rfl, hscan] at he
      exact absurd he (by simp)
    | ok f2 =>
      obtain ⟨hok, hne⟩ := (scanLinesF_proj _ 0 initF (by simp [initF])).2 f2 hscanF
      rw [show projF initF = initState from rfl, hscan] at hok
      injection hok with hok2
      refine ⟨f2.frags, ?_, ?_, hne⟩
      · rw [parseFrags, hscanF]
      · rw [← h2, hok2]
        rfl

/-- Witness for C5: two fragments under one tag join as one string with a
single separating space. -/
theorem claim5_witness :
    parse (("--name: x\na\nb").toList) = .ok [((("x").toList), (("a b").toList))] ∧
    ∃ fm, parseFrags (("--name: x\na\nb").toList) = .ok fm ∧
      [((("x").toList), (("a b").toList))] = fm.map (fun p => (p.1, joinSpace p.2)) ∧
      ∀ p ∈ fm, p.2 ≠ [] :=
  ⟨rfl, claim5_fragments_joined (("--name: x\na\nb").toList) _ rfl⟩

end Rsyesql
